import Mathlib

/-!
Verification of the geology-sk scraper (src/index.ts).

The development shallowly embeds the script's data flow:

* `JValue` models JavaScript values produced by `JSON.parse` (numbers are
  modelled as integers; the source data's identifiers are integral, and
  floating point is outside the scope of this embedding).
* `jsonParse` models the standard library `JSON.parse` on that fragment
  (strict: literals, integer numbers without leading zeros, strings with
  escapes, arrays, objects, JSON whitespace; trailing input rejected).
* `loadFile`, `extractEntries`, `processEntryFiles`, `saveEntries` are
  translated from src/index.ts; lodash `uniqBy` and `Papa.unparse` are
  modelled from their documented behaviour, `JSON.stringify(entries, null, 2)`
  from the ECMAScript serialization algorithm.

JavaScript-specific semantics are modelled explicitly: property access on
`null` throws (`Option`-valued `extractEntries`), `?? ` null-coalescing,
`filter(Boolean)` truthiness, and lodash's SameValueZero key comparison in
which two independently parsed objects are never equal (reference identity:
every object produced by `JSON.parse` is a fresh allocation).
-/

namespace Geo

/-- A JavaScript value as produced by `JSON.parse` (numbers restricted to
integers). -/
inductive JValue where
  | null : JValue
  | bool (b : Bool) : JValue
  | num (n : Int) : JValue
  | str (s : String) : JValue
  | arr (xs : List JValue) : JValue
  | obj (fs : List (String × JValue)) : JValue
deriving Repr

/-! ### Character constants (kept symbolic) -/

def quoteChar : Char := Char.ofNat 34
def backslashChar : Char := Char.ofNat 92
def lbraceChar : Char := Char.ofNat 123
def rbraceChar : Char := Char.ofNat 125
def nlChar : Char := Char.ofNat 10
def tabChar : Char := Char.ofNat 9
def crChar : Char := Char.ofNat 13
def spChar : Char := Char.ofNat 32
def slashChar : Char := Char.ofNat 47

/-- JSON whitespace: space, tab, line feed, carriage return. -/
def isJsonWs (c : Char) : Bool :=
  c = spChar || c = tabChar || c = nlChar || c = crChar

def skipWs (l : List Char) : List Char := l.dropWhile isJsonWs

/-- Hexadecimal digit value, as accepted in a JSON `\uXXXX` escape. -/
def parseHex (c : Char) : Option Nat :=
  if '0' ≤ c ∧ c ≤ '9' then some (c.toNat - 48)
  else if 'a' ≤ c ∧ c ≤ 'f' then some (c.toNat - 87)
  else if 'A' ≤ c ∧ c ≤ 'F' then some (c.toNat - 55)
  else none

/-- Body of a JSON string after the opening quote: returns the decoded
characters and the input following the closing quote. -/
def parseStringBody : List Char → Option (List Char × List Char)
  | [] => none
  | c :: rest =>
    if c = quoteChar then some ([], rest)
    else if c = backslashChar then
      match rest with
      | [] => none
      | e :: rest2 =>
        if e = quoteChar then
          (parseStringBody rest2).map (fun p => (quoteChar :: p.1, p.2))
        else if e = backslashChar then
          (parseStringBody rest2).map (fun p => (backslashChar :: p.1, p.2))
        else if e = slashChar then
          (parseStringBody rest2).map (fun p => (slashChar :: p.1, p.2))
        else if e = 'n' then
          (parseStringBody rest2).map (fun p => (nlChar :: p.1, p.2))
        else if e = 't' then
          (parseStringBody rest2).map (fun p => (tabChar :: p.1, p.2))
        else if e = 'r' then
          (parseStringBody rest2).map (fun p => (crChar :: p.1, p.2))
        else if e = 'b' then
          (parseStringBody rest2).map (fun p => (Char.ofNat 8 :: p.1, p.2))
        else if e = 'f' then
          (parseStringBody rest2).map (fun p => (Char.ofNat 12 :: p.1, p.2))
        else if e = 'u' then
          match rest2 with
          | h1 :: h2 :: h3 :: h4 :: rest3 =>
            match parseHex h1, parseHex h2, parseHex h3, parseHex h4 with
            | some a, some b, some c', some d =>
              (parseStringBody rest3).map
                (fun p => (Char.ofNat (((a * 16 + b) * 16 + c') * 16 + d) :: p.1, p.2))
            | _, _, _, _ => none
          | _ => none
        else none
    else if c.toNat < 32 then none
    else (parseStringBody rest).map (fun p => (c :: p.1, p.2))

/-- Value of a run of decimal digit characters (most significant first). -/
def digitsVal (l : List Char) : Nat :=
  l.foldl (fun a c => a * 10 + (c.toNat - 48)) 0

/-- Parse a maximal nonempty run of digits; JSON forbids leading zeros. -/
def parseNumRun (input : List Char) : Option (Nat × List Char) :=
  let run := input.takeWhile (fun c => c.isDigit)
  match run with
  | [] => none
  | [_] => some (digitsVal run, input.dropWhile (fun c => c.isDigit))
  | c :: _ :: _ =>
    if c = '0' then none
    else some (digitsVal run, input.dropWhile (fun c => c.isDigit))

/-- Check that `lit` is a prefix of the input; return the remainder. -/
def expectLit : List Char → List Char → Option (List Char)
  | [], input => some input
  | _ :: _, [] => none
  | l :: ls, c :: cs => if c = l then expectLit ls cs else none

/-- JavaScript object construction semantics: assigning an existing key
overwrites in place, a new key is appended (`JSON.parse` applies this to
duplicate keys: the last value wins, at the first occurrence's position). -/
def objInsert (fs : List (String × JValue)) (k : String) (v : JValue) :
    List (String × JValue) :=
  if fs.any (fun p => p.1 = k) then
    fs.map (fun p => if p.1 = k then (k, v) else p)
  else fs ++ [(k, v)]

def buildObj (ms : List (String × JValue)) : List (String × JValue) :=
  ms.foldl (fun acc kv => objInsert acc kv.1 kv.2) []

mutual

/-- Recursive-descent JSON value parser (fuel-indexed). -/
def parseValue : Nat → List Char → Option (JValue × List Char)
  | 0, _ => none
  | f + 1, input =>
    match input with
    | [] => none
    | c :: rest =>
      if c = 'n' then (expectLit ['u', 'l', 'l'] rest).map (fun r => (JValue.null, r))
      else if c = 't' then (expectLit ['r', 'u', 'e'] rest).map (fun r => (JValue.bool true, r))
      else if c = 'f' then (expectLit ['a', 'l', 's', 'e'] rest).map (fun r => (JValue.bool false, r))
      else if c = quoteChar then
        (parseStringBody rest).map (fun p => (JValue.str (String.mk p.1), p.2))
      else if c = '[' then
        match skipWs rest with
        | ']' :: r2 => some (JValue.arr [], r2)
        | r1 => (parseElems f r1).map (fun p => (JValue.arr p.1, p.2))
      else if c = lbraceChar then
        match skipWs rest with
        | r1 =>
          if r1.head? = some rbraceChar then some (JValue.obj [], r1.tail)
          else (parseMembers f r1).map (fun p => (JValue.obj (buildObj p.1), p.2))
      else if c = '-' then
        (parseNumRun rest).map (fun p => (JValue.num (-(p.1 : Int)), p.2))
      else if c.isDigit then
        (parseNumRun (c :: rest)).map (fun p => (JValue.num (p.1 : Int), p.2))
      else none

/-- Elements of a nonempty array, consuming the closing bracket. -/
def parseElems : Nat → List Char → Option (List JValue × List Char)
  | 0, _ => none
  | f + 1, input =>
    match parseValue f input with
    | none => none
    | some (v, r) =>
      match skipWs r with
      | [] => none
      | c :: r2 =>
        if c = ']' then some ([v], r2)
        else if c = ',' then
          (parseElems f (skipWs r2)).map (fun p => (v :: p.1, p.2))
        else none

/-- Members of a nonempty object, consuming the closing brace. -/
def parseMembers : Nat → List Char → Option (List (String × JValue) × List Char)
  | 0, _ => none
  | f + 1, input =>
    match input with
    | [] => none
    | c :: rest =>
      if c = quoteChar then
        match parseStringBody rest with
        | none => none
        | some (k, r1) =>
          match skipWs r1 with
          | [] => none
          | c2 :: r2 =>
            if c2 = ':' then
              match parseValue f (skipWs r2) with
              | none => none
              | some (v, r3) =>
                match skipWs r3 with
                | [] => none
                | c3 :: r4 =>
                  if c3 = rbraceChar then some ([(String.mk k, v)], r4)
                  else if c3 = ',' then
                    (parseMembers f (skipWs r4)).map
                      (fun p => ((String.mk k, v) :: p.1, p.2))
                  else none
            else none
      else none

end

/-- Model of `JSON.parse` (restricted to integer numbers): parse one value
surrounded by optional whitespace, rejecting trailing input.  The fuel
`2 * (length + 1)` dominates the recursion depth of any accepting run:
each `parseValue`/`parseElems`/`parseMembers` step either consumes a
character or is immediately preceded by one that does. -/
def jsonParse (s : String) : Option JValue :=
  match parseValue (2 * (s.data.length + 1)) (skipWs s.data) with
  | some (v, r) => if skipWs r = [] then some v else none
  | none => none

/-! ### File loading and entry extraction (src/index.ts) -/

/-- `loadFile`: read the file text and `JSON.parse` it; on a parse error
return the empty object `\x7b\x7d` (the file is identified with its text
content; an unreadable file is a fatal error outside this model). -/
def loadFile (content : String) : JValue :=
  (jsonParse content).getD (JValue.obj [])

/-- First-match field lookup in an object's field list (field lists built by
`buildObj` have unique keys, so first match is JavaScript property access). -/
def lookupField : List (String × JValue) → String → Option JValue
  | [], _ => none
  | (k', v) :: tl, k => if k' = k then some v else lookupField tl k

/-- JavaScript property access `v.k` on a non-null value: `some` is a present
property, `none` is `undefined`.  (Access on `null` throws and is handled at
the use site.) -/
def getProp : JValue → String → Option JValue
  | JValue.obj fs, k => lookupField fs k
  | _, _ => none

/-- JavaScript truthiness, as used by `.filter(Boolean)`. -/
def truthy : JValue → Bool
  | JValue.null => false
  | JValue.bool b => b
  | JValue.num n => n ≠ 0
  | JValue.str s => s ≠ ""
  | JValue.arr _ => true
  | JValue.obj _ => true

/-- `feature?.attributes ?? null`. -/
def featureAttr (f : JValue) : JValue :=
  match f with
  | JValue.obj fs => (lookupField fs "attributes").getD JValue.null
  | _ => JValue.null

/-- `extractEntries`, with JavaScript evaluation semantics:
`(fileContent.features ?? []).map(f => f?.attributes ?? null).filter(Boolean)`.
`none` models a thrown `TypeError`: property access on a `null` document, or
calling `.map` on a non-array `features` value. -/
def extractEntries (fileContent : JValue) : Option (List JValue) :=
  match fileContent with
  | JValue.null => none
  | v =>
    let base : JValue :=
      match getProp v "features" with
      | none => JValue.arr []
      | some JValue.null => JValue.arr []
      | some fv => fv
    match base with
    | JValue.arr features => some ((features.map featureAttr).filter truthy)
    | _ => none

/-! ### Deduplication (lodash `uniqBy`) -/

/-- SameValueZero on lodash iteratee keys, `none` being `undefined`.  Arrays
and objects compare by reference; every entry and every `objectid` value in
this program is a fresh allocation from `JSON.parse`, so two distinct list
positions never hold the same reference and object-valued keys are never
equal. -/
def jvalSvz : JValue → JValue → Bool
  | JValue.null, JValue.null => true
  | JValue.bool a, JValue.bool b => a == b
  | JValue.num a, JValue.num b => a == b
  | JValue.str a, JValue.str b => a == b
  | _, _ => false

def svzEq : Option JValue → Option JValue → Bool
  | none, none => true
  | some a, some b => jvalSvz a b
  | _, _ => false

/-- lodash `uniqBy`: keep an element when its key matches no previously kept
element's key (`seen` accumulates kept keys, compared by SameValueZero). -/
def uniqByAux {α κ : Type} (key : α → κ) (keq : κ → κ → Bool)
    (seen : List κ) : List α → List α
  | [] => []
  | e :: tl =>
    if seen.any (fun s => keq s (key e)) then uniqByAux key keq seen tl
    else e :: uniqByAux key keq (seen ++ [key e]) tl

/-- `(entry) => entry.objectid` (an entry is never `null`: `filter(Boolean)`
removed falsy values, so property access cannot throw here). -/
def entryKey (e : JValue) : Option JValue := getProp e "objectid"

def uniqBy (l : List JValue) : List JValue := uniqByAux entryKey svzEq [] l

/-! ### The merge engine (`processEntryFiles`) -/

/-- Per-file fan-out gathered in file order (`Promise.all`): `none` when any
file's processing throws. -/
def filesEntries : List String → Option (List (List JValue))
  | [] => some []
  | c :: tl =>
    (extractEntries (loadFile c)).bind
      (fun es => (filesEntries tl).map (fun rest => es :: rest))

/-- The concatenation `entriesPerFiles.flatMap(fileEntries => fileEntries)`. -/
def allEntries (cs : List String) : Option (List JValue) :=
  (filesEntries cs).map List.flatten

/-- `processEntryFiles` over the located files, each file given by its text
content. -/
def processEntryFiles (cs : List String) : Option (List JValue) :=
  (allEntries cs).map uniqBy

/-! ### Concurrency model of `Promise.all`

Each per-file task is pure; the scheduler chooses a completion order `σ`,
and each completion writes the task's result into its own slot of the
results array, which is gathered in index order. -/

def runSched {β : Type} (σ : List Nat) (rs : List β) : List (Option β) :=
  σ.foldl
    (fun slots i =>
      match rs[i]? with
      | some v => slots.set i (some v)
      | none => slots)
    (List.replicate rs.length none)

def seqOption {β : Type} : List (Option β) → Option (List β)
  | [] => some []
  | o :: tl => o.bind (fun v => (seqOption tl).map (fun rest => v :: rest))

/-- `processEntryFiles` with an explicit completion order for the per-file
tasks: the slots must all be filled, then the gathered task outcomes are
sequenced (`Promise.all` rejects when any task throws), flattened and
deduplicated. -/
def processEntryFilesSched (σ : List Nat) (cs : List String) :
    Option (List JValue) :=
  (seqOption (runSched σ (cs.map (fun c => extractEntries (loadFile c))))).bind
    (fun outcomes => (seqOption outcomes).map (fun ll => uniqBy ll.flatten))

/-! ### Records and the JSON serializer (`JSON.stringify(entries, null, 2)`)

The exporter's input type `Entry` (src/index.ts) is a flat mapping of named
fields to scalar values; `Scalar`/`Record` model it. -/

inductive Scalar where
  | null : Scalar
  | bool (b : Bool) : Scalar
  | num (n : Int) : Scalar
  | str (s : String) : Scalar
deriving Repr

abbrev Record := List (String × Scalar)

def scalarToJ : Scalar → JValue
  | Scalar.null => JValue.null
  | Scalar.bool b => JValue.bool b
  | Scalar.num n => JValue.num n
  | Scalar.str s => JValue.str s

def recordToJ (r : Record) : JValue :=
  JValue.obj (r.map (fun kv => (kv.1, scalarToJ kv.2)))

def entriesToJ (es : List Record) : JValue :=
  JValue.arr (es.map recordToJ)

/-- Decimal digits of `n`, most significant first (fuel-indexed; `n` itself
is enough fuel). -/
def natDigitsAux : Nat → Nat → List Char
  | 0, _ => []
  | _ + 1, 0 => []
  | f + 1, n => natDigitsAux f (n / 10) ++ [Nat.digitChar (n % 10)]

def natChars (n : Nat) : List Char :=
  if n = 0 then ['0'] else natDigitsAux n n

def intChars (n : Int) : List Char :=
  if n < 0 then '-' :: natChars n.natAbs else natChars n.toNat

def hexChar (n : Nat) : Char :=
  if n < 10 then Char.ofNat (48 + n) else Char.ofNat (87 + n)

/-- `JSON.stringify` string escaping: quote, backslash, and the named control
escapes; other control characters become `\u00XX`; everything else is
emitted verbatim. -/
def esc (c : Char) : List Char :=
  if c = quoteChar then [backslashChar, quoteChar]
  else if c = backslashChar then [backslashChar, backslashChar]
  else if c = nlChar then [backslashChar, 'n']
  else if c = tabChar then [backslashChar, 't']
  else if c = crChar then [backslashChar, 'r']
  else if c = Char.ofNat 8 then [backslashChar, 'b']
  else if c = Char.ofNat 12 then [backslashChar, 'f']
  else if c.toNat < 32 then
    [backslashChar, 'u', '0', '0', hexChar (c.toNat / 16), hexChar (c.toNat % 16)]
  else [c]

def escStr (s : List Char) : List Char := (s.map esc).flatten

def quoteStr (s : String) : List Char :=
  quoteChar :: (escStr s.data ++ [quoteChar])

def printScalar : Scalar → List Char
  | Scalar.null => ['n', 'u', 'l', 'l']
  | Scalar.bool true => ['t', 'r', 'u', 'e']
  | Scalar.bool false => ['f', 'a', 'l', 's', 'e']
  | Scalar.num n => intChars n
  | Scalar.str s => quoteStr s

/-- Two- and four-space indents of the 2-space gap. -/
def ind1 : List Char := [spChar, spChar]
def ind2 : List Char := [spChar, spChar, spChar, spChar]

def printField (kv : String × Scalar) : List Char :=
  quoteStr kv.1 ++ ':' :: spChar :: printScalar kv.2

/-- Fields of a nonempty record, including the record's closing brace at
indent 1 (records sit at nesting depth 1 inside the entries array). -/
def joinFields : Record → List Char
  | [] => nlChar :: ind1 ++ [rbraceChar]
  | [kv] => printField kv ++ nlChar :: ind1 ++ [rbraceChar]
  | kv :: tl => printField kv ++ ',' :: nlChar :: ind2 ++ joinFields tl

def printRecord : Record → List Char
  | [] => [lbraceChar, rbraceChar]
  | fs => lbraceChar :: nlChar :: ind2 ++ joinFields fs

/-- Records of a nonempty entries array, including the closing bracket. -/
def joinRecords : List Record → List Char
  | [] => nlChar :: [']']
  | [r] => printRecord r ++ nlChar :: [']']
  | r :: tl => printRecord r ++ ',' :: nlChar :: ind1 ++ joinRecords tl

def printEntries : List Record → List Char
  | [] => ['[', ']']
  | rs => '[' :: nlChar :: ind1 ++ joinRecords rs

/-- The `json` serializer: `JSON.stringify(entries, null, 2)`. -/
def jsonSerialize (es : List Record) : String := String.mk (printEntries es)

/-! ### The `csv` serializer (`Papa.unparse`), modelled from papaparse's
documented behaviour: header row from the first record's fields, rows in
field order, `\r\n` row separator, minimal quoting; the empty record set
serializes to the empty string. -/

def csvNeedsQuote (s : String) : Bool :=
  s.data.any (fun c => c = ',' || c = quoteChar || c = nlChar || c = crChar)

def csvQuote (s : String) : List Char :=
  if csvNeedsQuote s then
    quoteChar :: (s.data.map (fun c => if c = quoteChar then [quoteChar, quoteChar] else [c])).flatten
      ++ [quoteChar]
  else s.data

def csvCell : Option Scalar → List Char
  | none => []
  | some Scalar.null => []
  | some (Scalar.bool true) => ['t', 'r', 'u', 'e']
  | some (Scalar.bool false) => ['f', 'a', 'l', 's', 'e']
  | some (Scalar.num n) => intChars n
  | some (Scalar.str s) => csvQuote s

def lookupRec : Record → String → Option Scalar
  | [], _ => none
  | (k', v) :: tl, k => if k' = k then some v else lookupRec tl k

def joinWith (sep : List Char) : List (List Char) → List Char
  | [] => []
  | [x] => x
  | x :: tl => x ++ sep ++ joinWith sep tl

def csvSerialize (es : List Record) : String :=
  match es with
  | [] => ""
  | first :: _ =>
    let fields := first.map (fun kv => kv.1)
    let header := joinWith [','] (fields.map csvQuote)
    let rows := es.map (fun r => joinWith [','] (fields.map (fun k => csvCell (lookupRec r k))))
    String.mk (joinWith [crChar, nlChar] (header :: rows))

/-! ### The exporter (`saveEntries`) -/

/-- Model of Node `path.dirname` (posix): strip trailing separators, then cut
at the last separator; no separator yields `.` (or the root). -/
def dirname (p : String) : String :=
  match p.data with
  | [] => "."
  | c0 :: rest =>
    let rrev := rest.reverse.dropWhile (fun c => c = slashChar)
    match rrev.dropWhile (fun c => c ≠ slashChar) with
    | [] => if c0 = slashChar then "/" else "."
    | _ :: tail =>
      if c0 = slashChar ∧ tail = [] then "//"
      else String.mk (c0 :: tail.reverse)

inductive FsEffect where
  | mkdir (dir : String) : FsEffect
  | write (file : String) (content : String) : FsEffect
deriving Repr, DecidableEq

structure SaveOptions where
  outputFile : Option String
  format : Option String
deriving Repr

structure SaveResult where
  effects : List FsEffect
  error : Option String
deriving Repr, DecidableEq

/-- Property names every JavaScript object literal inherits from
`Object.prototype`.  The lookup `formatSerializers[format]` finds these on
the prototype chain, and each of the inherited values is truthy (a function,
or for `__proto__` the accessor result `Object.prototype` itself), so the
`if (!serializer) throw` check does not fire on them. -/
def objectPrototypeProps : List String :=
  ["constructor", "hasOwnProperty", "isPrototypeOf", "propertyIsEnumerable",
   "toLocaleString", "toString", "valueOf", "__proto__", "__defineGetter__",
   "__defineSetter__", "__lookupGetter__", "__lookupSetter__"]

/-- Result of the JavaScript property lookup `formatSerializers[format]` on
the serializer object literal, prototype chain included: an own property
(the `json`/`csv` arrow function), a truthy member inherited from
`Object.prototype`, or `undefined`. -/
inductive SerializerValue where
  | own (ser : List Record → String) : SerializerValue
  | inherited (name : String) : SerializerValue
  | undef : SerializerValue

/-- The lookup `formatSerializers[format]`. -/
def formatSerializers (format : String) : SerializerValue :=
  if format = "json" then SerializerValue.own jsonSerialize
  else if format = "csv" then SerializerValue.own csvSerialize
  else if format ∈ objectPrototypeProps then SerializerValue.inherited format
  else SerializerValue.undef

/-- `saveEntries`: defaults, recursive `mkdir` of the output file's parent
directory, serializer lookup, the `if (!serializer) throw` check, serializer
call, file write.  Effects are recorded in program order; `error` is the
thrown message or rejection.

The inherited-member branch is modelled from JavaScript strict-mode
semantics: the lookup value is truthy, so the `Invalid export format` throw
is skipped.  The detached call `serializer(entries)` then returns normally
only for `toString`, stringifying its `undefined` receiver (sloppy mode
would print the global object instead; no theorem depends on this content);
every other inherited member fails with a `TypeError` before any file
content is written (receiver coercion on `undefined`, calling the
non-function `__proto__` value, or `fsp.writeFile` rejecting a non-string
result such as `constructor`'s object). -/
def saveEntries (entries : List Record) (options : Option SaveOptions) :
    SaveResult :=
  let outputFile := (options.bind (fun o => o.outputFile)).getD "./output.json"
  let format := (options.bind (fun o => o.format)).getD "json"
  let outputDir := dirname outputFile
  match formatSerializers format with
  | SerializerValue.own serializer =>
    { effects := [FsEffect.mkdir outputDir, FsEffect.write outputFile (serializer entries)]
      error := none }
  | SerializerValue.inherited name =>
    if name = "toString" then
      { effects := [FsEffect.mkdir outputDir,
          FsEffect.write outputFile "[object Undefined]"]
        error := none }
    else
      { effects := [FsEffect.mkdir outputDir]
        error := some "TypeError" }
  | SerializerValue.undef =>
    { effects := [FsEffect.mkdir outputDir]
      error := some ("Invalid export format \"" ++ format ++ "\"") }

/-- A recorded write effect, for stating that some file write occurred. -/
def hasWrite (r : SaveResult) : Bool :=
  r.effects.any (fun e =>
    match e with
    | FsEffect.write _ _ => true
    | _ => false)

/-! ### Specification-side deduplication

`specFirstWins` follows the spec's words for the merge invariant: walking the
concatenation in order, a record is kept exactly when no earlier record's
key matches its key. -/

def specFirstWins {α κ : Type} (key : α → κ) (keq : κ → κ → Bool)
    (prev : List α) : List α → List α
  | [] => []
  | e :: tl =>
    if prev.any (fun p => keq (key p) (key e)) then
      specFirstWins key keq (prev ++ [e]) tl
    else e :: specFirstWins key keq (prev ++ [e]) tl

/-- Deduplication of a key list, first occurrence kept. -/
def dedupKeysAux {κ : Type} (keq : κ → κ → Bool) (seen : List κ) :
    List κ → List κ
  | [] => []
  | k :: tl =>
    if seen.any (fun s => keq s k) then dedupKeysAux keq seen tl
    else k :: dedupKeysAux keq (seen ++ [k]) tl

/-- The number of distinct `objectid` key values of a key list, distinctness
taken under the program's own value identity (SameValueZero with fresh
references). -/
def distinctKeyCount (ks : List (Option JValue)) : Nat :=
  (dedupKeysAux svzEq [] ks).length

theorem jvalSvz_trans (a b c : JValue) (h1 : jvalSvz a b = true)
    (h2 : jvalSvz b c = true) : jvalSvz a c = true := by
  cases a <;> cases b <;> cases c <;> simp_all [jvalSvz]

theorem svzEq_trans (a b c : Option JValue) (h1 : svzEq a b = true)
    (h2 : svzEq b c = true) : svzEq a c = true := by
  match a, b, c with
  | none, none, none => rfl
  | none, none, some _ => simp [svzEq] at h2
  | none, some _, _ => simp [svzEq] at h1
  | some _, none, _ => simp [svzEq] at h1
  | some _, some _, none => simp [svzEq] at h2
  | some av, some bv, some cv =>
    simp only [svzEq] at h1 h2 ⊢
    exact jvalSvz_trans av bv cv h1 h2

theorem map_key_uniqByAux {α κ : Type} (key : α → κ) (keq : κ → κ → Bool)
    (l : List α) : ∀ seen : List κ,
    (uniqByAux key keq seen l).map key = dedupKeysAux keq seen (l.map key) := by
  induction l with
  | nil => intro seen; rfl
  | cons e tl ih =>
    intro seen
    simp only [uniqByAux, List.map_cons, dedupKeysAux]
    by_cases h : seen.any (fun s => keq s (key e)) <;> simp [h, ih]

theorem uniqByAux_not_seen {α κ : Type} (key : α → κ) (keq : κ → κ → Bool)
    (l : List α) : ∀ seen : List κ, ∀ x ∈ uniqByAux key keq seen l,
    seen.any (fun s => keq s (key x)) = false := by
  induction l with
  | nil => intro seen x hx; simp [uniqByAux] at hx
  | cons e tl ih =>
    intro seen x hx
    simp only [uniqByAux] at hx
    by_cases h : seen.any (fun s => keq s (key e))
    · simp only [h, if_true] at hx
      exact ih seen x hx
    · simp only [h, if_false] at hx
      rcases List.mem_cons.mp hx with rfl | hx'
      · simpa using h
      · have := ih (seen ++ [key e]) x hx'
        simp only [List.any_append] at this
        exact (Bool.or_eq_false_iff.mp this).1

theorem uniqByAux_pairwise {α κ : Type} (key : α → κ) (keq : κ → κ → Bool)
    (l : List α) : ∀ seen : List κ,
    (uniqByAux key keq seen l).Pairwise
      (fun a b => keq (key a) (key b) = false) := by
  induction l with
  | nil => intro seen; simp [uniqByAux]
  | cons e tl ih =>
    intro seen
    simp only [uniqByAux]
    by_cases h : seen.any (fun s => keq s (key e))
    · simp only [h, if_true]; exact ih seen
    · simp only [h, if_false]
      refine List.Pairwise.cons ?_ (ih (seen ++ [key e]))
      intro x hx
      have := uniqByAux_not_seen key keq tl (seen ++ [key e]) x hx
      simp only [List.any_append, List.any_cons, List.any_nil,
        Bool.or_eq_false_iff] at this
      simpa using this.2

theorem uniqByAux_eq_specFirstWins {α κ : Type} (key : α → κ)
    (keq : κ → κ → Bool)
    (htrans : ∀ a b c, keq a b = true → keq b c = true → keq a c = true)
    (l : List α) : ∀ (prev : List α) (seen : List κ),
    (∀ k, seen.any (fun s => keq s k) = prev.any (fun p => keq (key p) k)) →
    uniqByAux key keq seen l = specFirstWins key keq prev l := by
  induction l with
  | nil => intro prev seen _; rfl
  | cons e tl ih =>
    intro prev seen hinv
    simp only [uniqByAux, specFirstWins, hinv (key e)]
    by_cases h : prev.any (fun p => keq (key p) (key e))
    · simp only [h, if_true]
      refine ih (prev ++ [e]) seen ?_
      intro k
      simp only [List.any_append, List.any_cons, List.any_nil, Bool.or_false]
      by_cases hc : keq (key e) k
      · obtain ⟨p, hp, hkp⟩ := List.any_eq_true.mp h
        have : keq (key p) k = true := htrans _ _ _ hkp hc
        have hprev : prev.any (fun p => keq (key p) k) = true :=
          List.any_eq_true.mpr ⟨p, hp, this⟩
        have hseen : seen.any (fun s => keq s k) = true := by
          rw [hinv k]; exact hprev
        simp [hseen, hprev, hc]
      · simp only [hc, Bool.or_false]
        exact hinv k
    · simp only [h, if_false]
      refine congrArg (e :: ·) (ih (prev ++ [e]) (seen ++ [key e]) ?_)
      intro k
      simp only [List.any_append, List.any_cons, List.any_nil, Bool.or_false,
        hinv k]

/-- A record with no `objectid` field (key `undefined`). -/
def keyless (e : JValue) : Bool := (entryKey e).isNone

theorem uniqByAux_keyless (l : List JValue) : ∀ seen : List (Option JValue),
    (uniqByAux entryKey svzEq seen l).filter keyless =
      if seen.any (fun s => svzEq s none) then []
      else (l.filter keyless).take 1 := by
  induction l with
  | nil => intro seen; simp [uniqByAux]
  | cons e tl ih =>
    intro seen
    cases hk : keyless e with
    | true =>
      have hnone : entryKey e = none := Option.isNone_iff_eq_none.mp hk
      cases h : seen.any (fun s => svzEq s none) with
      | true =>
        have hdup : seen.any (fun s => svzEq s (entryKey e)) = true := by
          rw [hnone]; exact h
        rw [uniqByAux]
        simp only [hdup, if_true, ih seen, h, if_true, List.filter_cons, hk,
          if_true]
      | false =>
        have hnew : seen.any (fun s => svzEq s (entryKey e)) = false := by
          rw [hnone]; exact h
        rw [uniqByAux, if_neg (by simp [hnew])]
        have hcond : ((seen ++ [entryKey e]).any fun s => svzEq s none) = true := by
          rw [hnone]
          simp [List.any_append, svzEq]
        simp [List.filter_cons, hk, ih (seen ++ [entryKey e]), hcond, h]
    | false =>
      cases h : seen.any (fun s => svzEq s (entryKey e)) with
      | true =>
        rw [uniqByAux]
        simp only [h, if_true, ih seen, List.filter_cons, hk,
          Bool.false_eq_true, if_false]
      | false =>
        have hne : svzEq (entryKey e) none = false := by
          cases hke : entryKey e
          · simp [keyless, hke] at hk
          · simp [svzEq]
        rw [uniqByAux]
        simp only [h, Bool.false_eq_true, if_false, List.filter_cons, hk,
          ih (seen ++ [entryKey e]), List.any_append, List.any_cons,
          List.any_nil, hne, Bool.or_false]

theorem allEntries_processEntryFiles (cs : List String) (l out : List JValue)
    (hl : allEntries cs = some l) (hout : processEntryFiles cs = some out) :
    out = uniqBy l := by
  unfold processEntryFiles at hout
  rw [hl] at hout
  simpa using hout.symm

/-- Claim C1: the merge engine deduplicates the file-order concatenation by
`objectid`: the output is exactly the first-occurrence-wins selection over
the concatenation, and no two output records share an `objectid` key
(key identity being the program's SameValueZero comparison). -/
theorem merge_firstWins_dedup (cs : List String) (l out : List JValue)
    (hl : allEntries cs = some l) (hout : processEntryFiles cs = some out) :
    out = specFirstWins entryKey svzEq [] l ∧
    out.Pairwise (fun a b => svzEq (entryKey a) (entryKey b) = false) := by
  have hu := allEntries_processEntryFiles cs l out hl hout
  constructor
  · rw [hu, uniqBy]
    exact uniqByAux_eq_specFirstWins entryKey svzEq svzEq_trans l [] []
      (fun k => by simp)
  · rw [hu, uniqBy]
    exact uniqByAux_pairwise entryKey svzEq l []

/-- Claim C2: the number of merged records equals the number of distinct
`objectid` key values among all extracted records. -/
theorem merge_count_distinct (cs : List String) (l out : List JValue)
    (hl : allEntries cs = some l) (hout : processEntryFiles cs = some out) :
    out.length = distinctKeyCount (l.map entryKey) := by
  have hu := allEntries_processEntryFiles cs l out hl hout
  have hmap := map_key_uniqByAux entryKey svzEq l []
  rw [hu, uniqBy, distinctKeyCount, ← hmap, List.length_map]

/-- Claim C9: records lacking an `objectid` field all share the `undefined`
dedupe key, so only the first such record of the concatenation survives. -/
theorem merge_keyless_collapse (cs : List String) (l out : List JValue)
    (hl : allEntries cs = some l) (hout : processEntryFiles cs = some out) :
    out.filter keyless = (l.filter keyless).take 1 := by
  have hu := allEntries_processEntryFiles cs l out hl hout
  rw [hu, uniqBy, uniqByAux_keyless]
  simp

/-- The spec's scenario inputs: `a.json` and `b.json`, in that order. -/
def scenarioFiles : List String :=
  ["\x7b\"features\":[\x7b\"attributes\":\x7b\"objectid\":1,\"lokalita\":\"X\"\x7d\x7d]\x7d",
   "\x7b\"features\":[\x7b\"attributes\":\x7b\"objectid\":1,\"lokalita\":\"Y\"\x7d\x7d,\x7b\"attributes\":\x7b\"objectid\":2,\"lokalita\":\"Z\"\x7d\x7d]\x7d"]

def scenarioConcat : List JValue :=
  [JValue.obj [("objectid", JValue.num 1), ("lokalita", JValue.str "X")],
   JValue.obj [("objectid", JValue.num 1), ("lokalita", JValue.str "Y")],
   JValue.obj [("objectid", JValue.num 2), ("lokalita", JValue.str "Z")]]

def scenarioOut : List JValue :=
  [JValue.obj [("objectid", JValue.num 1), ("lokalita", JValue.str "X")],
   JValue.obj [("objectid", JValue.num 2), ("lokalita", JValue.str "Z")]]

/-- Witness for C1: the spec's two-file scenario; `objectid` 1 keeps the
first file's `lokalita "X"` record, the later duplicate is dropped. -/
theorem merge_firstWins_dedup_witness :
    allEntries scenarioFiles = some scenarioConcat ∧
    processEntryFiles scenarioFiles = some scenarioOut ∧
    (scenarioOut = specFirstWins entryKey svzEq [] scenarioConcat ∧
      scenarioOut.Pairwise
        (fun a b => svzEq (entryKey a) (entryKey b) = false)) :=
  ⟨rfl, rfl, merge_firstWins_dedup scenarioFiles scenarioConcat scenarioOut rfl rfl⟩

def dupFiles : List String :=
  ["\x7b\"features\":[\x7b\"attributes\":\x7b\"objectid\":7\x7d\x7d,\x7b\"attributes\":\x7b\"objectid\":7\x7d\x7d]\x7d"]

def dupConcat : List JValue :=
  [JValue.obj [("objectid", JValue.num 7)], JValue.obj [("objectid", JValue.num 7)]]

def dupOut : List JValue := [JValue.obj [("objectid", JValue.num 7)]]

/-- Witness for C2: one file with a duplicated `objectid` 7; two extracted
records, one distinct key, one output record. -/
theorem merge_count_distinct_witness :
    allEntries dupFiles = some dupConcat ∧
    processEntryFiles dupFiles = some dupOut ∧
    dupOut.length = distinctKeyCount (dupConcat.map entryKey) :=
  ⟨rfl, rfl, merge_count_distinct dupFiles dupConcat dupOut rfl rfl⟩

def keylessFiles : List String :=
  ["\x7b\"features\":[\x7b\"attributes\":\x7b\"a\":1\x7d\x7d,\x7b\"attributes\":\x7b\"b\":2\x7d\x7d,\x7b\"attributes\":\x7b\"objectid\":3\x7d\x7d]\x7d"]

def keylessConcat : List JValue :=
  [JValue.obj [("a", JValue.num 1)], JValue.obj [("b", JValue.num 2)],
   JValue.obj [("objectid", JValue.num 3)]]

def keylessOut : List JValue :=
  [JValue.obj [("a", JValue.num 1)], JValue.obj [("objectid", JValue.num 3)]]

/-- Witness for C9: two records without `objectid` collapse onto the first of
them, the keyed record is unaffected. -/
theorem merge_keyless_collapse_witness :
    allEntries keylessFiles = some keylessConcat ∧
    processEntryFiles keylessFiles = some keylessOut ∧
    keylessOut.filter keyless = (keylessConcat.filter keyless).take 1 :=
  ⟨rfl, rfl, merge_keyless_collapse keylessFiles keylessConcat keylessOut rfl rfl⟩

/-! ### Determinism under the concurrency model (C8) -/

theorem runSched_foldl_length {β : Type} (rs : List β) (σ : List Nat) :
    ∀ slots : List (Option β),
    (σ.foldl
      (fun slots i =>
        match rs[i]? with
        | some v => slots.set i (some v)
        | none => slots) slots).length = slots.length := by
  induction σ with
  | nil => intro slots; rfl
  | cons i σ' ih =>
    intro slots
    rw [List.foldl_cons, ih]
    cases rs[i]? <;> simp

theorem runSched_foldl_getElem? {β : Type} (rs : List β) (σ : List Nat) :
    ∀ (slots : List (Option β)), slots.length = rs.length → ∀ j : Nat,
    (σ.foldl
      (fun slots i =>
        match rs[i]? with
        | some v => slots.set i (some v)
        | none => slots) slots)[j]? =
    if j ∈ σ ∧ j < rs.length then (rs[j]?).map some else slots[j]? := by
  induction σ with
  | nil => intro slots _ j; simp
  | cons i σ' ih =>
    intro slots hlen j
    rw [List.foldl_cons]
    have hlen' :
        (match rs[i]? with
          | some v => slots.set i (some v)
          | none => slots).length = rs.length := by
      cases rs[i]? <;> simp [hlen]
    rw [ih _ hlen' j]
    by_cases hmem : j ∈ σ' ∧ j < rs.length
    · simp only [hmem, if_true]
      have : j ∈ i :: σ' ∧ j < rs.length := ⟨List.mem_cons_of_mem i hmem.1, hmem.2⟩
      simp [this]
    · simp only [hmem, if_false]
      by_cases hij : j = i
      · subst hij
        cases hr : rs[j]? with
        | none =>
          have : ¬ j < rs.length := by
            intro hlt
            exact absurd hr (by simp [List.getElem?_eq_getElem hlt])
          simp [hr, this]
        | some v =>
          have hlt : j < rs.length := by
            by_contra hge
            rw [List.getElem?_eq_none (by omega)] at hr
            exact Option.noConfusion hr
          simp [hr, List.getElem?_set_self, hlen, hlt]
      · have : (match rs[i]? with
            | some v => slots.set i (some v)
            | none => slots)[j]? = slots[j]? := by
          cases rs[i]? with
          | none => rfl
          | some v => exact List.getElem?_set_ne (fun h => hij h.symm)
        rw [this]
        have hnot : ¬((j = i ∨ j ∈ σ') ∧ j < rs.length) := by
          rintro ⟨h1 | h2, hlt⟩
          · exact hij h1
          · exact hmem ⟨h2, hlt⟩
        simp only [List.mem_cons, hnot, if_false]

theorem runSched_perm {β : Type} (rs : List β) (σ : List Nat)
    (hperm : σ.Perm (List.range rs.length)) :
    runSched σ rs = rs.map some := by
  apply List.ext_getElem?
  intro j
  rw [runSched, runSched_foldl_getElem? rs σ _ (by simp) j]
  by_cases hlt : j < rs.length
  · have hmem : j ∈ σ := hperm.mem_iff.mpr (List.mem_range.mpr hlt)
    simp [hmem, hlt, List.getElem?_eq_getElem, List.getElem?_map]
  · have : ¬(j ∈ σ ∧ j < rs.length) := fun h => hlt h.2
    simp only [this, if_false]
    rw [List.getElem?_eq_none (by simpa using hlt),
      List.getElem?_eq_none (by simp; omega)]

theorem seqOption_map_some {β : Type} (rs : List β) :
    seqOption (rs.map some) = some rs := by
  induction rs with
  | nil => rfl
  | cons v tl ih => simp [seqOption, ih]

theorem filesEntries_eq_seq (cs : List String) :
    filesEntries cs =
      seqOption (cs.map (fun c => extractEntries (loadFile c))) := by
  induction cs with
  | nil => rfl
  | cons c tl ih => simp [filesEntries, seqOption, ih]

/-- Claim C8: for any completion order of the per-file tasks that is a
permutation of the task indices, the scheduled merge equals the sequential
merge: the gather order is the original file-list order, so the merged
record sequence does not depend on task completion order. -/
theorem merge_schedule_invariant (σ : List Nat) (cs : List String)
    (hperm : σ.Perm (List.range cs.length)) :
    processEntryFilesSched σ cs = processEntryFiles cs := by
  have hlen : (cs.map (fun c => extractEntries (loadFile c))).length = cs.length :=
    List.length_map _ _
  unfold processEntryFilesSched processEntryFiles allEntries
  rw [runSched_perm _ _ (by rw [hlen]; exact hperm), seqOption_map_some,
    filesEntries_eq_seq]
  cases h : seqOption (cs.map fun c => extractEntries (loadFile c)) <;> simp [h]

/-- Witness for C8: two files completed out of order gather identically. -/
theorem merge_schedule_invariant_witness :
    ([1, 0] : List Nat).Perm
      (List.range (["\x7b\"features\":[\x7b\"attributes\":\x7b\"objectid\":1\x7d\x7d]\x7d",
                    "\x7b\"features\":[\x7b\"attributes\":\x7b\"objectid\":2\x7d\x7d]\x7d"] : List String).length) ∧
    processEntryFilesSched [1, 0]
        ["\x7b\"features\":[\x7b\"attributes\":\x7b\"objectid\":1\x7d\x7d]\x7d",
         "\x7b\"features\":[\x7b\"attributes\":\x7b\"objectid\":2\x7d\x7d]\x7d"] =
      processEntryFiles
        ["\x7b\"features\":[\x7b\"attributes\":\x7b\"objectid\":1\x7d\x7d]\x7d",
         "\x7b\"features\":[\x7b\"attributes\":\x7b\"objectid\":2\x7d\x7d]\x7d"] :=
  ⟨by decide, merge_schedule_invariant [1, 0] _ (by decide)⟩

/-! ### Error handling of the loader (C3) -/

theorem filesEntries_skip_empty (content : String)
    (h0 : extractEntries (loadFile content) = some []) (post : List String) :
    ∀ pre : List String,
    (filesEntries (pre ++ content :: post)).map List.flatten =
      (filesEntries (pre ++ post)).map List.flatten := by
  intro pre
  induction pre with
  | nil =>
    simp only [List.nil_append, filesEntries, h0, Option.some_bind]
    cases filesEntries post <;> rfl
  | cons p pre' ih =>
    simp only [List.cons_append, filesEntries]
    cases hp : extractEntries (loadFile p) with
    | none => simp
    | some es =>
      simp only [Option.some_bind]
      cases hA : filesEntries (pre' ++ content :: post) with
      | none =>
        have hB0 : (filesEntries (pre' ++ post)).map List.flatten = none := by
          rw [← ih, hA]; rfl
        cases hB : filesEntries (pre' ++ post) with
        | none => simp
        | some lb => rw [hB] at hB0; simp at hB0
      | some la =>
        have hB0 : (filesEntries (pre' ++ post)).map List.flatten =
            some la.flatten := by
          rw [← ih, hA]; rfl
        cases hB : filesEntries (pre' ++ post) with
        | none => rw [hB] at hB0; simp at hB0
        | some lb =>
          rw [hB] at hB0
          have hfl : la.flatten = lb.flatten := by
            simpa using hB0.symm
          simp [hfl]

/-- Claim C3: a file whose text fails JSON parsing loads as the empty-object
sentinel, contributes zero records, and its presence anywhere in the file
list leaves the merge of the remaining files unchanged. -/
theorem loader_parse_error_recovery (content : String)
    (h : jsonParse content = none) :
    loadFile content = JValue.obj [] ∧
    extractEntries (loadFile content) = some [] ∧
    ∀ pre post : List String,
      processEntryFiles (pre ++ content :: post) =
        processEntryFiles (pre ++ post) := by
  have hload : loadFile content = JValue.obj [] := by
    rw [loadFile, h]; rfl
  have hext : extractEntries (loadFile content) = some [] := by
    rw [hload]; rfl
  refine ⟨hload, hext, ?_⟩
  intro pre post
  unfold processEntryFiles allEntries
  exact congrArg (Option.map uniqBy) (filesEntries_skip_empty content hext post pre)

/-- Witness for C3: the malformed file text `"not json"` is skipped. -/
theorem loader_parse_error_recovery_witness :
    loadFile "not json" = JValue.obj [] ∧
    extractEntries (loadFile "not json") = some [] ∧
    ∀ pre post : List String,
      processEntryFiles (pre ++ "not json" :: post) =
        processEntryFiles (pre ++ post) :=
  loader_parse_error_recovery "not json" rfl

/-! ### Totality of the extractor (C4)

The claim as stated is false: the JSON document `null` parses, but
`fileContent.features` then throws a `TypeError`.  (A non-array `features`
value likewise makes `.map` throw.)  The amended claim excludes those
documents. -/

/-- Counterexample to C4 as stated: the document `null` is a parseable JSON
document on which the extractor throws instead of returning a list. -/
theorem extractEntries_not_total :
    jsonParse "null" = some JValue.null ∧ extractEntries JValue.null = none :=
  ⟨rfl, rfl⟩

/-- Claim C4 (amended): for every parsed document other than `null` whose
`features` field, when present, is `null` or an array, the extractor returns
a list without error; a missing `features` field yields the empty list, and
every feature element lacking a truthy `attributes` payload is dropped (the
returned list holds only truthy payloads). -/
theorem extractEntries_total (d : JValue) (hne : d ≠ JValue.null)
    (hfeat : ∀ v, getProp d "features" = some v →
      v = JValue.null ∨ ∃ xs, v = JValue.arr xs) :
    ∃ l, extractEntries d = some l ∧
      (getProp d "features" = none → l = []) ∧
      ∀ e ∈ l, truthy e = true := by
  cases d with
  | null => exact absurd rfl hne
  | bool b => exact ⟨[], rfl, fun _ => rfl, by simp⟩
  | num n => exact ⟨[], rfl, fun _ => rfl, by simp⟩
  | str s => exact ⟨[], rfl, fun _ => rfl, by simp⟩
  | arr xs => exact ⟨[], rfl, fun _ => rfl, by simp⟩
  | obj fs =>
    cases hg : lookupField fs "features" with
    | none =>
      refine ⟨[], ?_, fun _ => rfl, by simp⟩
      simp [extractEntries, getProp, hg]
    | some v =>
      have hv := hfeat v (by simp [getProp, hg])
      rcases hv with rfl | ⟨xs, rfl⟩
      · refine ⟨[], ?_, fun _ => rfl, by simp⟩
        simp [extractEntries, getProp, hg]
      · refine ⟨(xs.map featureAttr).filter truthy, ?_, ?_, ?_⟩
        · simp [extractEntries, getProp, hg]
        · intro h0
          rw [getProp, hg] at h0
          exact absurd h0 (by simp)
        · intro e he
          exact List.of_mem_filter he

def c4Doc : JValue :=
  JValue.obj [("features",
    JValue.arr [JValue.obj [("attributes", JValue.num 0)],
                JValue.obj [("x", JValue.num 1)],
                JValue.obj [("attributes", JValue.obj [("objectid", JValue.num 4)])]])]

/-- Witness for the amended C4: a document whose features carry a falsy
payload, no payload, and an object payload; only the object payload
survives. -/
theorem extractEntries_total_witness :
    ∃ l, extractEntries c4Doc = some l ∧
      (getProp c4Doc "features" = none → l = []) ∧
      ∀ e ∈ l, truthy e = true :=
  extractEntries_total c4Doc (by simp [c4Doc])
    (by
      intro v h
      rw [show getProp c4Doc "features" =
        some (JValue.arr [JValue.obj [("attributes", JValue.num 0)],
          JValue.obj [("x", JValue.num 1)],
          JValue.obj [("attributes", JValue.obj [("objectid", JValue.num 4)])]]) from rfl] at h
      exact Or.inr ⟨_, (Option.some_inj.mp h).symm⟩)

/-! ### The exporter's format validation (C5, C10)

The serializer table is a JavaScript object literal, so the lookup
`formatSerializers[format]` consults the prototype chain: a format naming an
inherited `Object.prototype` member yields a truthy value and skips the
`Invalid export format` throw entirely.  C5 as stated is therefore false at
`format = "toString"`: no error is raised and the output file is written. -/

/-- Counterexample to C5 as stated: the format `"toString"` is neither
`"json"` nor `"csv"`, yet the lookup finds the inherited
`Object.prototype.toString`, no error is raised, and a write to the output
file occurs. -/
theorem saveEntries_invalid_format_cex :
    ("toString" ≠ "json" ∧ "toString" ≠ "csv") ∧
    (saveEntries [] (some ⟨some "./out.dat", some "toString"⟩)).error = none ∧
    hasWrite (saveEntries [] (some ⟨some "./out.dat", some "toString"⟩)) = true :=
  ⟨⟨by decide, by decide⟩, by decide, by decide⟩

/-- Claim C5 (amended): for every format that is neither `"json"` nor
`"csv"` and does not name a property inherited from `Object.prototype`, the
lookup yields `undefined`, `saveEntries` throws the fatal
`Invalid export format` error, and no write effect is ever issued. -/
theorem saveEntries_invalid_format (entries : List Record)
    (outputFile : Option String) (format : String)
    (hj : format ≠ "json") (hc : format ≠ "csv")
    (hp : format ∉ objectPrototypeProps) :
    (saveEntries entries (some ⟨outputFile, some format⟩)).error =
      some ("Invalid export format \"" ++ format ++ "\"") ∧
    ∀ f c, FsEffect.write f c ∉
      (saveEntries entries (some ⟨outputFile, some format⟩)).effects := by
  have hser : formatSerializers format = SerializerValue.undef := by
    simp [formatSerializers, hj, hc, hp]
  unfold saveEntries
  simp [hser]

/-- Witness for C5: exporting with format `"xml"` errors without a write. -/
theorem saveEntries_invalid_format_witness :
    (saveEntries [] (some ⟨some "./out/data.xml", some "xml"⟩)).error =
      some ("Invalid export format \"" ++ "xml" ++ "\"") ∧
    ∀ f c, FsEffect.write f c ∉
      (saveEntries [] (some ⟨some "./out/data.xml", some "xml"⟩)).effects :=
  saveEntries_invalid_format [] (some "./out/data.xml") "xml"
    (by decide) (by decide) (by decide)

/-- Claim C10: `saveEntries` issues the recursive `mkdir` of the output
file's parent directory first, before the format is validated: for every
format the first recorded effect is the `mkdir`, and whenever the call
raises an error the `mkdir` has already happened and is the sole filesystem
effect — in particular no file was written. -/
theorem saveEntries_mkdir_despite_error (entries : List Record)
    (outputFile : String) (format : String) :
    (saveEntries entries (some ⟨some outputFile, some format⟩)).effects.head? =
      some (FsEffect.mkdir (dirname outputFile)) ∧
    ((saveEntries entries (some ⟨some outputFile, some format⟩)).error.isSome →
      (saveEntries entries (some ⟨some outputFile, some format⟩)).effects =
        [FsEffect.mkdir (dirname outputFile)]) := by
  cases hser : formatSerializers format with
  | own ser => simp [saveEntries, hser]
  | inherited name =>
    by_cases hts : name = "toString"
    · simp [saveEntries, hser, hts]
    · simp [saveEntries, hser, hts]
  | undef => simp [saveEntries, hser]

/-- Witness for C10: a `"yaml"` export errors, and `./data` was still
created as the only effect. -/
theorem saveEntries_mkdir_despite_error_witness :
    (saveEntries [] (some ⟨some "./data/out.yaml", some "yaml"⟩)).effects.head? =
      some (FsEffect.mkdir (dirname "./data/out.yaml")) ∧
    (saveEntries [] (some ⟨some "./data/out.yaml", some "yaml"⟩)).effects =
      [FsEffect.mkdir (dirname "./data/out.yaml")] :=
  ⟨(saveEntries_mkdir_despite_error [] "./data/out.yaml" "yaml").1,
   (saveEntries_mkdir_despite_error [] "./data/out.yaml" "yaml").2 (by decide)⟩

/-- Claim C7: with no matching input files the merge succeeds with zero
records, and the exporter writes a valid empty output: the empty JSON array
for the `json` format and empty content for the `csv` format. -/
theorem empty_input_empty_output :
    processEntryFiles [] = some [] ∧
    jsonSerialize [] = "[]" ∧
    csvSerialize [] = "" ∧
    (saveEntries [] (some ⟨some "./output/geology-sk.csv", some "csv"⟩)).effects =
      [FsEffect.mkdir "./output", FsEffect.write "./output/geology-sk.csv" ""] ∧
    (saveEntries [] (some ⟨some "./output/geology-sk.csv", some "csv"⟩)).error = none ∧
    (saveEntries [] (some ⟨some "./output.json", some "json"⟩)).effects =
      [FsEffect.mkdir ".", FsEffect.write "./output.json" "[]"] ∧
    (saveEntries [] (some ⟨some "./output.json", some "json"⟩)).error = none :=
  ⟨rfl, rfl, rfl, rfl, rfl, rfl, rfl⟩

/-! ### Round-trip of the JSON serializer through the parser (C6) -/

theorem skipWs_not_ws (c : Char) (l : List Char) (h : isJsonWs c = false) :
    skipWs (c :: l) = c :: l := by
  simp [skipWs, List.dropWhile_cons, h]

theorem skipWs_ws (c : Char) (l : List Char) (h : isJsonWs c = true) :
    skipWs (c :: l) = skipWs l := by
  simp [skipWs, List.dropWhile_cons, h]

theorem skipWs_pre (p : List Char) (l : List Char)
    (h : ∀ c ∈ p, isJsonWs c = true) : skipWs (p ++ l) = skipWs l := by
  induction p with
  | nil => rfl
  | cons c p' ih =>
    rw [List.cons_append, skipWs_ws c _ (h c (by simp))]
    exact ih (fun c hc => h c (by simp [hc]))

theorem expectLit_self (lit : List Char) : ∀ r : List Char,
    expectLit lit (lit ++ r) = some r := by
  induction lit with
  | nil => intro r; rfl
  | cons c cs ih => intro r; simp [expectLit, ih]

theorem parseHex_hexChar : ∀ n < 16, parseHex (hexChar n) = some n := by
  decide

theorem escParse (c : Char) (l : List Char) :
    parseStringBody (esc c ++ l) =
      (parseStringBody l).map (fun p => (c :: p.1, p.2)) := by
  rw [esc]
  split_ifs with h1 h2 h3 h4 h5 h6 h7 h8
  · subst h1; conv_lhs => rw [parseStringBody.eq_def]
    simp +decide
  · subst h2; conv_lhs => rw [parseStringBody.eq_def]
    simp +decide
  · subst h3; conv_lhs => rw [parseStringBody.eq_def]
    simp +decide
  · subst h4; conv_lhs => rw [parseStringBody.eq_def]
    simp +decide
  · subst h5; conv_lhs => rw [parseStringBody.eq_def]
    simp +decide
  · subst h6; conv_lhs => rw [parseStringBody.eq_def]
    simp +decide
  · subst h7; conv_lhs => rw [parseStringBody.eq_def]
    simp +decide
  · have hdiv : c.toNat / 16 < 16 := by omega
    have hmod : c.toNat % 16 < 16 := Nat.mod_lt _ (by omega)
    have hval : (((0 * 16 + 0) * 16 + c.toNat / 16) * 16 + c.toNat % 16) =
        c.toNat := by omega
    have hval2 : c.toNat / 16 * 16 + c.toNat % 16 = c.toNat := by omega
    have hz : parseHex '0' = some 0 := by decide
    conv_lhs => rw [parseStringBody.eq_def]
    simp +decide [parseHex_hexChar _ hdiv, parseHex_hexChar _ hmod, hz, hval,
      hval2, Char.ofNat_toNat]
  · conv_lhs => rw [parseStringBody.eq_def]
    simp [h1, h2, h8]

theorem stringBodyRound (s : List Char) : ∀ l : List Char,
    parseStringBody (escStr s ++ quoteChar :: l) = some (s, l) := by
  induction s with
  | nil =>
    intro l
    rw [show escStr [] = [] from rfl, List.nil_append]
    conv_lhs => rw [parseStringBody.eq_def]
    simp +decide
  | cons c s' ih =>
    intro l
    have : escStr (c :: s') = esc c ++ escStr s' := by
      simp [escStr]
    rw [this, List.append_assoc, escParse, ih]
    rfl

/-! Digit printing and parsing. -/

theorem digitChar_isDigit : ∀ d < 10, (Nat.digitChar d).isDigit = true := by
  decide

theorem digitChar_toNat : ∀ d < 10, (Nat.digitChar d).toNat - 48 = d := by
  decide

theorem digitChar_ne_zero : ∀ d < 10, 0 < d → Nat.digitChar d ≠ '0' := by
  decide

theorem natDigitsAux_zero (f : Nat) : natDigitsAux f 0 = [] := by
  cases f <;> rfl

theorem natDigitsAux_succ (f n : Nat) (hn : n ≠ 0) :
    natDigitsAux (f + 1) n = natDigitsAux f (n / 10) ++ [Nat.digitChar (n % 10)] := by
  cases n with
  | zero => exact absurd rfl hn
  | succ m => rfl

theorem natDigitsAux_digits (f : Nat) : ∀ n, n ≤ f →
    ∀ c ∈ natDigitsAux f n, c.isDigit = true := by
  induction f with
  | zero => intro n hn c hc; simp [natDigitsAux] at hc
  | succ f' ih =>
    intro n hn c hc
    by_cases hz : n = 0
    · subst hz; simp [natDigitsAux_zero] at hc
    · rw [natDigitsAux_succ f' n hz] at hc
      rcases List.mem_append.mp hc with h | h
      · exact ih (n / 10) (by omega) c h
      · have : c = Nat.digitChar (n % 10) := by simpa using h
        subst this
        exact digitChar_isDigit _ (Nat.mod_lt _ (by omega))

theorem natDigitsAux_ne_nil (f n : Nat) (h0 : 0 < n) (hf : n ≤ f) :
    natDigitsAux f n ≠ [] := by
  cases f with
  | zero => omega
  | succ f' =>
    rw [natDigitsAux_succ f' n (by omega)]
    simp

theorem natDigitsAux_foldl (f : Nat) : ∀ n acc, n ≤ f →
    (natDigitsAux f n).foldl (fun a c => a * 10 + (c.toNat - 48)) acc =
      acc * 10 ^ (natDigitsAux f n).length + n := by
  induction f with
  | zero =>
    intro n acc hn
    have : n = 0 := by omega
    subst this
    simp [natDigitsAux]
  | succ f' ih =>
    intro n acc hn
    by_cases hz : n = 0
    · subst hz; simp [natDigitsAux_zero]
    · have hL : (natDigitsAux f' (n / 10) ++ [Nat.digitChar (n % 10)]).length =
          (natDigitsAux f' (n / 10)).length + 1 := by simp
      rw [natDigitsAux_succ f' n hz, List.foldl_append,
        ih (n / 10) acc (by omega), hL, pow_succ]
      simp only [List.foldl_cons, List.foldl_nil]
      rw [digitChar_toNat _ (Nat.mod_lt _ (by omega))]
      calc (acc * 10 ^ (natDigitsAux f' (n / 10)).length + n / 10) * 10 + n % 10
          = acc * (10 ^ (natDigitsAux f' (n / 10)).length * 10) +
              (10 * (n / 10) + n % 10) := by ring
        _ = acc * (10 ^ (natDigitsAux f' (n / 10)).length * 10) + n := by
              rw [Nat.div_add_mod]

theorem digitsVal_natChars (n : Nat) : digitsVal (natChars n) = n := by
  rw [natChars]
  by_cases hz : n = 0
  · subst hz; decide
  · simp only [hz, if_false]
    rw [digitsVal, natDigitsAux_foldl n n 0 (le_refl n)]
    simp

theorem natChars_ne_nil (n : Nat) : natChars n ≠ [] := by
  rw [natChars]
  by_cases hz : n = 0
  · subst hz; simp
  · simp only [hz, if_false]
    exact natDigitsAux_ne_nil n n (by omega) (le_refl n)

theorem natChars_digits (n : Nat) : ∀ c ∈ natChars n, c.isDigit = true := by
  rw [natChars]
  by_cases hz : n = 0
  · subst hz; simp
  · simp only [hz, if_false]
    exact natDigitsAux_digits n n (le_refl n)

theorem natDigitsAux_head_ne_zero (f : Nat) : ∀ n, 0 < n → n ≤ f →
    ∀ c, (natDigitsAux f n).head? = some c → c ≠ '0' := by
  induction f with
  | zero => intro n h0 hf; omega
  | succ f' ih =>
    intro n h0 hf c hc
    rw [natDigitsAux_succ f' n (by omega)] at hc
    by_cases hq : n / 10 = 0
    · rw [hq, natDigitsAux_zero, List.nil_append] at hc
      simp only [List.head?_cons, Option.some_inj] at hc
      subst hc
      have : n % 10 = n := Nat.mod_eq_of_lt (by omega)
      rw [this]
      exact digitChar_ne_zero n (by omega) h0
    · have hne : natDigitsAux f' (n / 10) ≠ [] :=
        natDigitsAux_ne_nil f' (n / 10) (by omega) (by omega)
      cases hd : natDigitsAux f' (n / 10) with
      | nil => exact absurd hd hne
      | cons d ds =>
        have hcd : c = d := by
          rw [hd, List.cons_append, List.head?_cons] at hc
          exact (Option.some_inj.mp hc).symm
        rw [hcd]
        exact ih (n / 10) (by omega) (by omega) d (by rw [hd]; rfl)

theorem natChars_head_ne_zero (n : Nat) (h0 : 0 < n) :
    ∀ c, (natChars n).head? = some c → c ≠ '0' ∨ natChars n = ['0'] := by
  intro c hc
  rw [natChars] at hc
  by_cases hz : n = 0
  · omega
  · simp only [hz, if_false] at hc
    exact Or.inl (natDigitsAux_head_ne_zero n n h0 (le_refl n) c hc)

theorem takeWhile_digits (A : List Char) (rest : List Char)
    (hA : ∀ c ∈ A, c.isDigit = true)
    (hrest : ∀ c, rest.head? = some c → c.isDigit = false) :
    (A ++ rest).takeWhile (fun c => c.isDigit) = A ∧
    (A ++ rest).dropWhile (fun c => c.isDigit) = rest := by
  induction A with
  | nil =>
    simp only [List.nil_append]
    cases rest with
    | nil => simp
    | cons c r =>
      have := hrest c rfl
      simp [List.takeWhile_cons, List.dropWhile_cons, this]
  | cons a A' ih =>
    have ha := hA a (by simp)
    have ⟨iht, ihd⟩ := ih (fun c hc => hA c (by simp [hc]))
    simp [List.takeWhile_cons, List.dropWhile_cons, ha, iht, ihd]

theorem parseNumRun_round (n : Nat) (rest : List Char)
    (hrest : ∀ c, rest.head? = some c → c.isDigit = false) :
    parseNumRun (natChars n ++ rest) = some (n, rest) := by
  have ⟨ht, hd⟩ := takeWhile_digits (natChars n) rest (natChars_digits n) hrest
  rw [parseNumRun]
  simp only [ht, hd]
  cases hnc : natChars n with
  | nil => exact absurd hnc (natChars_ne_nil n)
  | cons c t =>
    cases t with
    | nil =>
      have : digitsVal [c] = n := by rw [← hnc]; exact digitsVal_natChars n
      simp [this]
    | cons c2 t2 =>
      have hne : c ≠ '0' := by
        have h0 : 0 < n := by
          by_contra hn0
          have : n = 0 := by omega
          subst this
          rw [show natChars 0 = ['0'] from rfl] at hnc
          simp at hnc
        rcases natChars_head_ne_zero n h0 c (by rw [hnc]; rfl) with h | h
        · exact h
        · rw [h] at hnc
          simp at hnc
      have hval : digitsVal (c :: c2 :: t2) = n := by
        rw [← hnc]; exact digitsVal_natChars n
      simp [hne, hval]

theorem isDigit_not_special (c : Char) (h : c.isDigit = true) :
    c ≠ 'n' ∧ c ≠ 't' ∧ c ≠ 'f' ∧ c ≠ quoteChar ∧ c ≠ '[' ∧
    c ≠ lbraceChar ∧ c ≠ '-' := by
  refine ⟨?_, ?_, ?_, ?_, ?_, ?_, ?_⟩ <;> rintro rfl <;>
    exact absurd h (by decide)

/-- A printed scalar parses back to its `JValue` injection, for any
continuation that does not start with a digit. -/
theorem parseValue_scalar (f : Nat) (sc : Scalar) (rest : List Char)
    (hrest : ∀ c, rest.head? = some c → c.isDigit = false) :
    parseValue (f + 1) (printScalar sc ++ rest) = some (scalarToJ sc, rest) := by
  cases sc with
  | null =>
    conv_lhs => rw [parseValue.eq_def]
    simp +decide [printScalar, expectLit, scalarToJ]
  | bool b =>
    cases b <;>
      (conv_lhs => rw [parseValue.eq_def]) <;>
      simp +decide [printScalar, expectLit, scalarToJ]
  | num n =>
    by_cases hneg : n < 0
    · have hic : intChars n = '-' :: natChars n.natAbs := by
        rw [intChars, if_pos hneg]
      have hval : (-(n.natAbs : Int)) = n := by omega
      conv_lhs => rw [parseValue.eq_def]
      simp only [printScalar, hic, List.cons_append]
      simp +decide only []
      rw [parseNumRun_round n.natAbs rest hrest]
      show some (JValue.num (-(n.natAbs : Int)), rest) =
        some (JValue.num n, rest)
      rw [hval]
    · have hic : intChars n = natChars n.toNat := by
        rw [intChars, if_neg hneg]
      cases hnc : natChars n.toNat with
      | nil => exact absurd hnc (natChars_ne_nil _)
      | cons c t =>
        have hcd : c.isDigit = true :=
          natChars_digits n.toNat c (by rw [hnc]; simp)
        obtain ⟨hn', ht', hf', hq', hb', hl', hm'⟩ := isDigit_not_special c hcd
        have hin : printScalar (Scalar.num n) ++ rest = c :: (t ++ rest) := by
          rw [printScalar, hic, hnc]; rfl
        rw [hin]
        conv_lhs => rw [parseValue.eq_def]
        simp only [hn', ht', hf', hq', hb', hl', hm', if_false, hcd, if_true]
        have hrun : c :: (t ++ rest) = natChars n.toNat ++ rest := by
          rw [hnc]; rfl
        rw [hrun, parseNumRun_round n.toNat rest hrest]
        have hval : ((n.toNat : Int)) = n := by omega
        show some (JValue.num ((n.toNat : Int)), rest) =
          some (JValue.num n, rest)
        rw [hval]
  | str s =>
    have hin : printScalar (Scalar.str s) ++ rest =
        quoteChar :: (escStr s.data ++ quoteChar :: rest) := by
      simp [printScalar, quoteStr]
    rw [hin]
    conv_lhs => rw [parseValue.eq_def]
    simp +decide only []
    rw [stringBodyRound]
    rfl

theorem isDigit_not_ws (c : Char) (h : c.isDigit = true) :
    isJsonWs c = false := by
  have h4 : c ≠ spChar ∧ c ≠ tabChar ∧ c ≠ nlChar ∧ c ≠ crChar := by
    refine ⟨?_, ?_, ?_, ?_⟩ <;> rintro rfl <;> exact absurd h (by decide)
  simp [isJsonWs, h4.1, h4.2.1, h4.2.2.1, h4.2.2.2]

theorem printScalar_ne_nil (v : Scalar) : printScalar v ≠ [] := by
  cases v with
  | null => simp [printScalar]
  | bool b => cases b <;> simp [printScalar]
  | num n =>
    rw [printScalar, intChars]
    split_ifs
    · simp
    · exact natChars_ne_nil _
  | str s => simp [printScalar, quoteStr]

theorem printScalar_head_not_ws (v : Scalar) :
    ∀ c, (printScalar v).head? = some c → isJsonWs c = false := by
  cases v with
  | null => intro c hc; simp only [printScalar, List.head?_cons,
      Option.some_inj] at hc; subst hc; decide
  | bool b =>
    cases b <;> (intro c hc; simp only [printScalar, List.head?_cons,
      Option.some_inj] at hc; subst hc; decide)
  | num n =>
    intro c hc
    rw [printScalar, intChars] at hc
    split_ifs at hc
    · simp only [List.head?_cons, Option.some_inj] at hc; subst hc; decide
    · cases hnc : natChars n.toNat with
      | nil => exact absurd hnc (natChars_ne_nil _)
      | cons d t =>
        rw [hnc] at hc
        simp only [List.head?_cons, Option.some_inj] at hc
        cases hc
        exact isDigit_not_ws c (natChars_digits n.toNat c (by rw [hnc]; simp))
  | str s =>
    intro c hc
    simp only [printScalar, quoteStr, List.head?_cons, Option.some_inj] at hc
    subst hc
    decide

theorem skipWs_printScalar (v : Scalar) (l : List Char) :
    skipWs (printScalar v ++ l) = printScalar v ++ l := by
  cases hp : printScalar v with
  | nil => exact absurd hp (printScalar_ne_nil v)
  | cons c t =>
    rw [List.cons_append]
    exact skipWs_not_ws c _ (printScalar_head_not_ws v c (by rw [hp]; rfl))

/-- The printed fields of a nonempty record, with the closing brace, parse
back to the record's member list. -/
theorem parseMembers_joinFields (fs : Record) (hne : fs ≠ []) :
    ∀ (f : Nat) (rest : List Char), fs.length ≤ f →
    parseMembers (f + 1) (joinFields fs ++ rest) =
      some (fs.map (fun kv => (kv.1, scalarToJ kv.2)), rest) := by
  induction fs with
  | nil => exact absurd rfl hne
  | cons kv tl ih =>
    intro f rest hf
    obtain ⟨f', rfl⟩ : ∃ f', f = f' + 1 :=
      ⟨f - 1, by have := List.length_pos.mpr (show kv :: tl ≠ [] by simp); omega⟩
    cases tl with
    | nil =>
      have hin : joinFields [kv] ++ rest =
          quoteChar :: (escStr kv.1.data ++ quoteChar ::
            (':' :: (spChar :: (printScalar kv.2 ++
              (nlChar :: (spChar :: (spChar :: (rbraceChar :: rest)))))))) := by
        simp [joinFields, printField, quoteStr, ind1, List.append_assoc]
      rw [hin]
      conv_lhs => rw [parseMembers.eq_def]
      simp +decide only []
      rw [stringBodyRound]
      simp +decide only [Option.some_bind]
      rw [skipWs_not_ws ':' _ (by decide)]
      simp +decide only []
      rw [skipWs_ws spChar _ (by decide), skipWs_printScalar,
        parseValue_scalar f' kv.2 _ (by intro c hc; simp at hc; subst hc; decide)]
      simp +decide only []
      rw [show skipWs (nlChar :: (spChar :: (spChar :: (rbraceChar :: rest)))) =
          rbraceChar :: rest from by
        rw [skipWs_ws _ _ (by decide), skipWs_ws _ _ (by decide),
          skipWs_ws _ _ (by decide), skipWs_not_ws _ _ (by decide)]]
      simp +decide only []
      rfl
    | cons kv2 tl2 =>
      have hin : joinFields (kv :: kv2 :: tl2) ++ rest =
          quoteChar :: (escStr kv.1.data ++ quoteChar ::
            (':' :: (spChar :: (printScalar kv.2 ++
              (',' :: (nlChar :: (spChar :: (spChar :: (spChar :: (spChar ::
                (joinFields (kv2 :: tl2) ++ rest))))))))))) := by
        simp [joinFields, printField, quoteStr, ind2, List.append_assoc]
      rw [hin]
      conv_lhs => rw [parseMembers.eq_def]
      simp +decide only []
      rw [stringBodyRound]
      simp +decide only [Option.some_bind]
      rw [skipWs_not_ws ':' _ (by decide)]
      simp +decide only []
      rw [skipWs_ws spChar _ (by decide), skipWs_printScalar,
        parseValue_scalar f' kv.2 _ (by intro c hc; simp at hc; subst hc; decide)]
      simp +decide only []
      rw [skipWs_not_ws ',' _ (by decide)]
      simp +decide only []
      rw [show skipWs (nlChar :: (spChar :: (spChar :: (spChar :: (spChar ::
          (joinFields (kv2 :: tl2) ++ rest)))))) =
          joinFields (kv2 :: tl2) ++ rest from by
        rw [skipWs_ws _ _ (by decide), skipWs_ws _ _ (by decide),
          skipWs_ws _ _ (by decide), skipWs_ws _ _ (by decide),
          skipWs_ws _ _ (by decide)]
        cases hjf : joinFields (kv2 :: tl2) with
        | nil =>
          exfalso
          cases tl2 <;> simp [joinFields, printField, quoteStr] at hjf
        | cons c t =>
          have hq : c = quoteChar := by
            cases tl2 <;>
              (simp [joinFields, printField, quoteStr, List.cons_append] at hjf
               exact hjf.1.symm)
          rw [List.cons_append]
          exact skipWs_not_ws c _ (by rw [hq]; decide)]
      rw [ih (by simp) f' rest (by simpa using Nat.le_of_succ_le_succ hf)]
      rfl

/-- With pairwise distinct keys, JavaScript object construction keeps the
member list as given. -/
theorem buildObj_nodup (ms : List (String × JValue)) :
    ∀ acc : List (String × JValue),
    ((acc ++ ms).map Prod.fst).Nodup →
    ms.foldl (fun acc kv => objInsert acc kv.1 kv.2) acc = acc ++ ms := by
  induction ms with
  | nil => intro acc _; simp
  | cons kv tl ih =>
    intro acc hnd
    have hnotin : kv.1 ∉ acc.map Prod.fst := by
      intro hmem
      rw [List.map_append] at hnd
      rcases List.nodup_append.mp hnd with ⟨_, _, hdisj⟩
      exact hdisj hmem (by simp)
    have hcond : (acc.any (fun p => p.1 = kv.1)) = false := by
      simp only [List.any_eq_false, decide_eq_true_eq]
      intro p hp hpk
      exact hnotin (hpk ▸ List.mem_map_of_mem Prod.fst hp)
    have hins : objInsert acc kv.1 kv.2 = acc ++ [kv] := by
      rw [objInsert, hcond]
      simp
    rw [List.foldl_cons, hins, ih (acc ++ [kv]) (by simpa using hnd)]
    simp

theorem joinFields_ne_nil (kv : String × Scalar) (tl : Record) :
    joinFields (kv :: tl) ≠ [] := by
  cases tl <;> simp [joinFields, printField, quoteStr]

theorem joinFields_cons_head (kv : String × Scalar) (tl : Record) :
    (joinFields (kv :: tl)).head? = some quoteChar := by
  cases tl <;> simp [joinFields, printField, quoteStr]

theorem head?_append_ne_nil (A l : List Char) (h : A ≠ []) :
    (A ++ l).head? = A.head? := by
  cases A with
  | nil => exact absurd rfl h
  | cons a t => rfl

theorem skipWs_of_head (l : List Char) (c : Char) (h : l.head? = some c)
    (hws : isJsonWs c = false) : skipWs l = l := by
  cases l with
  | nil => simp at h
  | cons a t =>
    simp only [List.head?_cons, Option.some_inj] at h
    cases h
    exact skipWs_not_ws c t hws

/-- One unfolding step of the parser on an object opener. -/
theorem parseValue_step_lbrace (f : Nat) (rest : List Char) :
    parseValue (f + 1) (lbraceChar :: rest) =
      (if (skipWs rest).head? = some rbraceChar then
        some (JValue.obj [], (skipWs rest).tail)
      else
        (parseMembers f (skipWs rest)).map
          (fun p => (JValue.obj (buildObj p.1), p.2))) := rfl

/-- A printed record parses back as one JSON value. -/
theorem parseValue_record (r : Record) (hnd : (r.map Prod.fst).Nodup) :
    ∀ (f : Nat) (rest : List Char), r.length + 1 ≤ f →
    parseValue (f + 1) (printRecord r ++ rest) = some (recordToJ r, rest) := by
  intro f rest hf
  cases r with
  | nil =>
    have hin : printRecord [] ++ rest = lbraceChar :: (rbraceChar :: rest) := rfl
    rw [hin, parseValue_step_lbrace, skipWs_not_ws rbraceChar _ (by decide)]
    rfl
  | cons kv tl =>
    obtain ⟨f', rfl⟩ : ∃ f', f = f' + 1 := ⟨f - 1, by omega⟩
    have hin : printRecord (kv :: tl) ++ rest =
        lbraceChar :: (nlChar :: (spChar :: (spChar :: (spChar :: (spChar ::
          (joinFields (kv :: tl) ++ rest)))))) := by
      simp [printRecord, ind2, List.append_assoc]
    have hhead : (joinFields (kv :: tl) ++ rest).head? = some quoteChar := by
      rw [head?_append_ne_nil _ _ (joinFields_ne_nil kv tl)]
      exact joinFields_cons_head kv tl
    have hsk : skipWs (nlChar :: (spChar :: (spChar :: (spChar :: (spChar ::
        (joinFields (kv :: tl) ++ rest)))))) =
        joinFields (kv :: tl) ++ rest := by
      rw [skipWs_ws _ _ (by decide), skipWs_ws _ _ (by decide),
        skipWs_ws _ _ (by decide), skipWs_ws _ _ (by decide),
        skipWs_ws _ _ (by decide)]
      exact skipWs_of_head _ _ hhead (by decide)
    rw [hin, parseValue_step_lbrace, hsk, hhead, if_neg (by decide)]
    rw [parseMembers_joinFields (kv :: tl) (by simp) f' rest
      (by simpa using Nat.le_of_succ_le_succ hf)]
    have hkeys : ((([] : List (String × JValue)) ++
        ((kv :: tl).map (fun kv => (kv.1, scalarToJ kv.2)))).map Prod.fst).Nodup := by
      simpa [List.map_map, Function.comp] using hnd
    have hb : buildObj ((kv :: tl).map (fun kv => (kv.1, scalarToJ kv.2))) =
        (kv :: tl).map (fun kv => (kv.1, scalarToJ kv.2)) := by
      have hfold := buildObj_nodup
        ((kv :: tl).map (fun kv => (kv.1, scalarToJ kv.2))) [] hkeys
      simpa [buildObj] using hfold
    show some (JValue.obj (buildObj
        ((kv :: tl).map (fun kv => (kv.1, scalarToJ kv.2)))), rest) =
      some (recordToJ (kv :: tl), rest)
    rw [hb]
    rfl

/-- Fuel needed by `parseElems` for a printed record list. -/
def listFuel (rs : List Record) : Nat :=
  rs.foldr (fun r acc => acc + r.length + 3) 0

theorem joinFields_length (fs : Record) : fs.length ≤ (joinFields fs).length := by
  induction fs with
  | nil => simp [joinFields]
  | cons kv tl ih =>
    cases tl with
    | nil =>
      simp only [joinFields, List.length_cons, List.length_append, ind1,
        List.length_nil]
      omega
    | cons kv2 tl2 =>
      rw [show joinFields (kv :: kv2 :: tl2) =
        printField kv ++ ',' :: nlChar :: ind2 ++ joinFields (kv2 :: tl2)
        from rfl]
      simp only [List.length_cons, List.length_append, ind2] at ih ⊢
      simp only [List.length_cons, List.length_nil]
      omega

theorem printRecord_length (r : Record) :
    r.length + 1 ≤ (printRecord r).length := by
  cases r with
  | nil => simp [printRecord]
  | cons kv tl =>
    rw [show printRecord (kv :: tl) =
      lbraceChar :: nlChar :: (ind2 ++ joinFields (kv :: tl)) from rfl]
    have := joinFields_length (kv :: tl)
    simp only [List.length_cons, List.length_append] at this ⊢
    omega

theorem listFuel_le_joinRecords (rs : List Record) :
    listFuel rs ≤ (joinRecords rs).length := by
  induction rs with
  | nil => simp [listFuel, joinRecords]
  | cons r tl ih =>
    cases tl with
    | nil =>
      rw [show joinRecords [r] = printRecord r ++ nlChar :: [']'] from rfl]
      have h2 := printRecord_length r
      simp only [listFuel, List.foldr_cons, List.foldr_nil,
        List.length_append, List.length_cons, List.length_nil]
      omega
    | cons r2 tl2 =>
      rw [show joinRecords (r :: r2 :: tl2) =
        printRecord r ++ ',' :: nlChar :: ind1 ++ joinRecords (r2 :: tl2)
        from rfl]
      have h2 := printRecord_length r
      simp only [listFuel, List.foldr_cons, List.foldr_nil] at ih ⊢
      simp only [List.length_append, List.length_cons, ind1,
        List.length_nil]
      omega

theorem printRecord_head (r : Record) :
    ∃ t, printRecord r = lbraceChar :: t := by
  cases r with
  | nil => exact ⟨[rbraceChar], rfl⟩
  | cons kv tl => exact ⟨nlChar :: (ind2 ++ joinFields (kv :: tl)), rfl⟩

theorem joinRecords_cons_shape (r : Record) (tl : List Record) :
    ∃ u, joinRecords (r :: tl) = lbraceChar :: u := by
  obtain ⟨t, ht⟩ := printRecord_head r
  cases tl with
  | nil =>
    exact ⟨t ++ nlChar :: [']'], by
      rw [show joinRecords [r] = printRecord r ++ nlChar :: [']'] from rfl, ht]
      rfl⟩
  | cons r2 tl2 =>
    exact ⟨t ++ ',' :: nlChar :: ind1 ++ joinRecords (r2 :: tl2), by
      rw [show joinRecords (r :: r2 :: tl2) =
        printRecord r ++ ',' :: nlChar :: ind1 ++ joinRecords (r2 :: tl2)
        from rfl, ht]
      simp⟩

/-- The printed records of a nonempty entries array, with the closing
bracket, parse back to the injected record values. -/
theorem parseElems_joinRecords (rs : List Record) (hne : rs ≠ [])
    (hnd : ∀ r ∈ rs, (r.map Prod.fst).Nodup) :
    ∀ (f : Nat) (rest : List Char), listFuel rs ≤ f + 1 →
    parseElems (f + 1) (joinRecords rs ++ rest) =
      some (rs.map recordToJ, rest) := by
  induction rs with
  | nil => exact absurd rfl hne
  | cons r tl ih =>
    intro f rest hf
    have hr : (r.map Prod.fst).Nodup := hnd r (by simp)
    obtain ⟨f', rfl⟩ : ∃ f', f = f' + 1 := by
      refine ⟨f - 1, ?_⟩
      have : listFuel (r :: tl) = listFuel tl + r.length + 3 := by
        simp [listFuel]
      omega
    cases tl with
    | nil =>
      have hin : joinRecords [r] ++ rest =
          printRecord r ++ (nlChar :: (']' :: rest)) := by
        rw [show joinRecords [r] = printRecord r ++ nlChar :: [']'] from rfl]
        simp
      rw [hin]
      conv_lhs => rw [parseElems.eq_def]
      simp +decide only []
      rw [parseValue_record r hr f' _ (by
        have : listFuel [r] = r.length + 3 := by simp [listFuel]
        omega)]
      simp +decide only []
      rfl
    | cons r2 tl2 =>
      have hin : joinRecords (r :: r2 :: tl2) ++ rest =
          printRecord r ++ (',' :: (nlChar :: (spChar :: (spChar ::
            (joinRecords (r2 :: tl2) ++ rest))))) := by
        rw [show joinRecords (r :: r2 :: tl2) =
          printRecord r ++ ',' :: nlChar :: ind1 ++ joinRecords (r2 :: tl2)
          from rfl]
        simp [ind1]
      rw [hin]
      conv_lhs => rw [parseElems.eq_def]
      simp +decide only []
      rw [parseValue_record r hr f' _ (by
        have h1 : listFuel (r :: r2 :: tl2) =
          listFuel (r2 :: tl2) + r.length + 3 := by simp [listFuel]
        omega)]
      simp +decide only []
      rw [skipWs_not_ws ',' _ (by decide)]
      simp +decide only []
      obtain ⟨u, hu⟩ := joinRecords_cons_shape r2 tl2
      have hsk : skipWs (nlChar :: (spChar :: (spChar ::
          (joinRecords (r2 :: tl2) ++ rest)))) =
          joinRecords (r2 :: tl2) ++ rest := by
        rw [skipWs_ws _ _ (by decide), skipWs_ws _ _ (by decide),
          skipWs_ws _ _ (by decide), hu, List.cons_append,
          skipWs_not_ws _ _ (by decide)]
      rw [hsk]
      rw [ih (by simp) (fun r' hr' => hnd r' (by simp [hr'])) f' rest (by
        have h1 : listFuel (r :: r2 :: tl2) =
          listFuel (r2 :: tl2) + r.length + 3 := by simp [listFuel]
        omega)]
      rfl

/-- One unfolding step of the parser on an array opener. -/
theorem parseValue_step_lbracket (f : Nat) (rest : List Char) :
    parseValue (f + 1) ('[' :: rest) =
      (match skipWs rest with
       | ']' :: r2 => some (JValue.arr [], r2)
       | r1 => (parseElems f r1).map (fun p => (JValue.arr p.1, p.2))) := rfl

/-- Claim C6: serializing a record set with the exporter's JSON serializer
(`JSON.stringify(entries, null, 2)`) and parsing the text back as JSON
yields the same record set, field for field.  The hypothesis states that
each record is a JavaScript object, i.e. its field names are distinct. -/
theorem jsonSerialize_roundtrip (es : List Record)
    (hnd : ∀ r ∈ es, (r.map Prod.fst).Nodup) :
    jsonParse (jsonSerialize es) = some (entriesToJ es) := by
  cases es with
  | nil => rfl
  | cons r tl =>
    obtain ⟨u, hu⟩ := joinRecords_cons_shape r tl
    have hfl := listFuel_le_joinRecords (r :: tl)
    have hdata : (jsonSerialize (r :: tl)).data =
        '[' :: (nlChar :: (spChar :: (spChar :: joinRecords (r :: tl)))) := by
      show printEntries (r :: tl) = _
      simp [printEntries, ind1]
    have hskip : skipWs ((jsonSerialize (r :: tl)).data) =
        (jsonSerialize (r :: tl)).data := by
      rw [hdata]
      exact skipWs_not_ws _ _ (by decide)
    unfold jsonParse
    rw [hskip, hdata]
    have hlen : ('[' :: (nlChar :: (spChar :: (spChar ::
        joinRecords (r :: tl))))).length =
        (joinRecords (r :: tl)).length + 4 := by simp
    rw [hlen]
    have hfuel : 2 * ((joinRecords (r :: tl)).length + 4 + 1) =
        (2 * (joinRecords (r :: tl)).length + 9) + 1 := by omega
    rw [hfuel, parseValue_step_lbracket]
    have hsk2 : skipWs (nlChar :: (spChar :: (spChar ::
        joinRecords (r :: tl)))) = joinRecords (r :: tl) := by
      rw [skipWs_ws _ _ (by decide), skipWs_ws _ _ (by decide),
        skipWs_ws _ _ (by decide), hu, skipWs_not_ws _ _ (by decide)]
    rw [hsk2]
    have hmatch : (match joinRecords (r :: tl) with
        | ']' :: r2 => some (JValue.arr [], r2)
        | r1 => (parseElems (2 * (joinRecords (r :: tl)).length + 9) r1).map
            (fun p => (JValue.arr p.1, p.2))) =
        (parseElems (2 * (joinRecords (r :: tl)).length + 9)
          (joinRecords (r :: tl))).map (fun p => (JValue.arr p.1, p.2)) := by
      rw [hu]
      exact rfl
    have helems : parseElems (2 * (joinRecords (r :: tl)).length + 9)
        (joinRecords (r :: tl)) = some ((r :: tl).map recordToJ, []) := by
      have h9 : 2 * (joinRecords (r :: tl)).length + 9 =
          (2 * (joinRecords (r :: tl)).length + 8) + 1 := by omega
      rw [h9]
      have hres := parseElems_joinRecords (r :: tl) (by simp) hnd
        (2 * (joinRecords (r :: tl)).length + 8) [] (by omega)
      simpa using hres
    rw [hmatch, helems]
    rfl

/-- Witness for C6: a two-record set with string, numeric and null fields
round-trips. -/
theorem jsonSerialize_roundtrip_witness :
    jsonParse (jsonSerialize
      [[("objectid", Scalar.num 433), ("lokalita", Scalar.str "Gab")],
       [("objectid", Scalar.num (-7)), ("poznamka", Scalar.null)]]) =
    some (entriesToJ
      [[("objectid", Scalar.num 433), ("lokalita", Scalar.str "Gab")],
       [("objectid", Scalar.num (-7)), ("poznamka", Scalar.null)]]) :=
  jsonSerialize_roundtrip
    [[("objectid", Scalar.num 433), ("lokalita", Scalar.str "Gab")],
     [("objectid", Scalar.num (-7)), ("poznamka", Scalar.null)]]
    (by decide)

end Geo
